import Mathlib

set_option maxHeartbeats 1000000
set_option maxRecDepth 8000

/-!
Shallow embedding of `scripts/generate_formulas.py`, the Homebrew formula
generator: platform classification of release assets, version grouping and
retention, formula rendering, and cleanup of stale pinned formula files.
-/

/-- Boolean list-prefix test (the behavior of `List.isPrefixOf`). -/
def isPre : List Char → List Char → Bool
  | [], _ => true
  | _ :: _, [] => false
  | a :: as, b :: bs => a == b && isPre as bs

/-- One scan of Python `str.replace` for a nonempty pattern: replace
non-overlapping occurrences left to right; after a replacement the consumed
pattern characters are skipped via the counter and not rescanned. -/
def replAux (pat rep : List Char) : List Char → Nat → List Char
  | [], _ => []
  | _ :: cs, skip + 1 => replAux pat rep cs skip
  | c :: cs, 0 =>
    if isPre pat (c :: cs) then rep ++ replAux pat rep cs (pat.length - 1)
    else c :: replAux pat rep cs 0

/-- Python `str.replace` with an empty pattern inserts the replacement before
every character and once at the end. -/
def emptyPatRepl (rep : List Char) : List Char → List Char
  | [] => rep
  | c :: cs => rep ++ c :: emptyPatRepl rep cs

/-- Python `str.replace` on character lists. -/
def pyReplaceL (s pat rep : List Char) : List Char :=
  match pat with
  | [] => emptyPatRepl rep s
  | p :: ps => replAux (p :: ps) rep s 0

/-- Python `str.replace` on strings. -/
def pyReplace (s pat rep : String) : String :=
  String.mk (pyReplaceL s.data pat.data rep.data)

/-- Python `pat in s` substring containment on character lists. -/
def containsSub (s pat : List Char) : Bool :=
  (List.range (s.length + 1)).any fun i => isPre pat (s.drop i)

/-- Python `pat in s` substring containment on strings. -/
def containsStr (s pat : String) : Bool := containsSub s.data pat.data

/-- `extract_version`: strips the leading run of `v` characters from a tag,
as Python `tag.lstrip("v")` does. -/
def extract_version (tag : String) : String :=
  String.mk (tag.data.dropWhile (fun c => c = 'v'))

/-- Python `s.split(".")`: split at every dot; empty components are kept. -/
def splitDot : List Char → List (List Char)
  | [] => [[]]
  | c :: cs =>
    match splitDot cs with
    | [] => [[]]
    | w :: ws => if c = '.' then [] :: w :: ws else (c :: w) :: ws

/-- Python `int` on a decimal-digit string (the nonnegative case used for
version components); `none` models the `ValueError`. -/
def parseNat? (s : List Char) : Option Nat :=
  if s.isEmpty || !(s.all Char.isDigit) then none
  else some (s.foldl (fun acc c => acc * 10 + (c.toNat - 48)) 0)

/-- `extract_major_minor`: first two dot-separated components of a version,
or the version itself when it has fewer than two components. -/
def extract_major_minor (version : String) : String :=
  match splitDot version.data with
  | a :: b :: _ => String.mk (a ++ '.' :: b)
  | _ => version

/-- Appending strings appends their character data. -/
theorem strData_append (s t : String) : (s ++ t).data = s.data ++ t.data := by
  cases s
  cases t
  rfl

/-- Building a string from appended data appends the strings. -/
theorem strMk_append (a b : List Char) :
    String.mk (a ++ b) = String.mk a ++ String.mk b := by
  rfl

/-- String append is associative. -/
theorem strAppend_assoc (s t u : String) : s ++ t ++ u = s ++ (t ++ u) := by
  cases s
  cases t
  cases u
  show String.mk _ = String.mk _
  simp [List.append_assoc]

/-- A string equals the string built from its data. -/
theorem strMk_data (s : String) : String.mk s.data = s := by
  cases s
  rfl

/-- A boolean prefix test yields an actual list decomposition. -/
theorem isPre_ex {a b : List Char} (h : isPre a b = true) :
    ∃ t, b = a ++ t := by
  induction a generalizing b with
  | nil => exact ⟨b, rfl⟩
  | cons x xs ih =>
    cases b with
    | nil => simp [isPre] at h
    | cons y ys =>
      simp [isPre] at h
      obtain ⟨t, ht⟩ := ih h.2
      exact ⟨t, by simp [h.1, ht]⟩

/-- A list is a boolean prefix of itself followed by anything. -/
theorem isPre_append (a t : List Char) : isPre a (a ++ t) = true := by
  induction a with
  | nil => simp [isPre]
  | cons x xs ih => simp [isPre, ih]

/-- Characters of a dropped suffix are characters of the original list. -/
theorem mem_of_mem_drop {c : Char} {s : List Char} {i : Nat}
    (h : c ∈ s.drop i) : c ∈ s :=
  (List.drop_subset i s) h

/-- A substring hit exhibits an occurrence: some suffix starts with the
pattern. -/
theorem containsSub_true_iff (s pat : List Char) :
    containsSub s pat = true ↔ ∃ i, i < s.length + 1 ∧ isPre pat (s.drop i) = true := by
  constructor
  · intro h
    simp [containsSub, List.any_eq_true] at h
    obtain ⟨i, hi, hp⟩ := h
    exact ⟨i, hi, hp⟩
  · intro ⟨i, hi, hp⟩
    simp [containsSub, List.any_eq_true]
    exact ⟨i, hi, hp⟩

/-- A pattern occurring literally in the middle of a concatenation is found
by substring containment. -/
theorem containsSub_intro (x y pat : List Char) :
    containsSub (x ++ (pat ++ y)) pat = true := by
  rw [containsSub_true_iff]
  refine ⟨x.length, ?_, ?_⟩
  · simp
    omega
  · rw [List.drop_left]
    exact isPre_append pat y

/-- If a character of the pattern is absent from the string, the pattern is
not a substring. -/
theorem containsSub_false_of_not_mem (c : Char) {s pat : List Char}
    (hc : c ∈ pat) (hs : c ∉ s) : containsSub s pat = false := by
  by_contra h
  rw [Bool.not_eq_false, containsSub_true_iff] at h
  obtain ⟨i, _, hp⟩ := h
  obtain ⟨t, ht⟩ := isPre_ex hp
  have : c ∈ s.drop i := by
    rw [ht]
    exact List.mem_append_left t hc
  exact hs (mem_of_mem_drop this)

/-! ## Data model -/

/-- A release asset: downloadable file name, URL, and checksum. -/
structure Asset where
  name : String
  url : String
  sha256 : String
deriving DecidableEq, Repr

/-- A GitHub release: tag, normalized version, major.minor key, and the
platform-slot to asset mapping. -/
structure Release where
  tag : String
  version : String
  major_minor : String
  assets : List (String × Asset)
deriving DecidableEq, Repr

/-- A project configuration (after `__post_init__` defaulting). -/
structure Project where
  repo : String
  name : String
  description : String
  license : String
  homepage : String
  binary_name : String
  keep_versions : Nat
  asset_patterns : List (String × String)
deriving DecidableEq, Repr

/-- Raw asset record of a release as returned by the API
(`name` and `browser_download_url`). -/
structure AssetData where
  name : String
  url : String
deriving DecidableEq, Repr

/-- Raw release record as returned by the API. -/
structure RelData where
  tag_name : String
  prerelease : Bool
  draft : Bool
  assets : List AssetData
deriving DecidableEq, Repr

/-! ## Python dict model: insertion-ordered association lists -/

/-- Python dict lookup `d.get(k)`: value of the first (unique) matching key. -/
def pyGet {α : Type} (d : List (String × α)) (k : String) : Option α :=
  (d.find? (fun kv => kv.1 == k)).map (fun kv => kv.2)

/-- Python dict assignment `d[k] = v`: overwrite in place or append. -/
def pyInsert {α : Type} (d : List (String × α)) (k : String) (v : α) :
    List (String × α) :=
  match d with
  | [] => [(k, v)]
  | (k1, v1) :: rest =>
    if k1 == k then (k, v) :: rest else (k1, v1) :: pyInsert rest k v

/-- Unfolding lemma for `pyGet` on a cons cell. -/
theorem pyGet_cons {α : Type} (k1 : String) (v1 : α) (rest : List (String × α))
    (k : String) :
    pyGet ((k1, v1) :: rest) k = if k1 = k then some v1 else pyGet rest k := by
  by_cases h : k1 = k
  · rw [pyGet, List.find?_cons_of_pos _ (by simp [h]), if_pos h]
    rfl
  · rw [pyGet, List.find?_cons_of_neg _ (by simp [h]), if_neg h]
    rfl

/-- Looking up the just-inserted key finds the new value. -/
theorem pyGet_pyInsert_self {α : Type} (d : List (String × α)) (k : String) (v : α) :
    pyGet (pyInsert d k v) k = some v := by
  induction d with
  | nil =>
    show pyGet [(k, v)] k = some v
    rw [pyGet_cons, if_pos rfl]
  | cons kv rest ih =>
    obtain ⟨k1, v1⟩ := kv
    by_cases h : k1 = k
    · have e : pyInsert ((k1, v1) :: rest) k v = (k, v) :: rest := by
        simp [pyInsert, h]
      rw [e, pyGet_cons, if_pos rfl]
    · have e : pyInsert ((k1, v1) :: rest) k v = (k1, v1) :: pyInsert rest k v := by
        simp [pyInsert, h]
      rw [e, pyGet_cons, if_neg h]
      exact ih

/-- Looking up a different key is unaffected by an insertion. -/
theorem pyGet_pyInsert_ne {α : Type} (d : List (String × α)) (k k2 : String) (v : α)
    (h : k2 ≠ k) : pyGet (pyInsert d k v) k2 = pyGet d k2 := by
  induction d with
  | nil =>
    show pyGet [(k, v)] k2 = pyGet [] k2
    rw [pyGet_cons, if_neg (fun hh => h (Eq.symm hh))]
  | cons kv rest ih =>
    obtain ⟨k1, v1⟩ := kv
    by_cases h1 : k1 = k
    · have e : pyInsert ((k1, v1) :: rest) k v = (k, v) :: rest := by
        simp [pyInsert, h1]
      rw [e, pyGet_cons, if_neg (fun hh => h (Eq.symm hh)), pyGet_cons,
        if_neg (fun hh => h (Eq.symm (h1 ▸ hh)))]
    · have e : pyInsert ((k1, v1) :: rest) k v = (k1, v1) :: pyInsert rest k v := by
        simp [pyInsert, h1]
      rw [e, pyGet_cons, pyGet_cons, ih]

/-! ## Platform detection (`PLATFORM_PATTERNS`, `detect_platform`) -/

/-- A built-in platform regex: either a plain substring or an `A.*B`
two-literal form. -/
inductive PPattern where
  | lit (a : String)
  | seq (a b : String)
deriving DecidableEq, Repr

/-- Match of the regex form `A.*B` (via `re.search`): an occurrence of `A`
followed, with no intervening newline, by an occurrence of `B`. -/
def matchSeq (s a b : List Char) : Bool :=
  (List.range (s.length + 1)).any fun i =>
    isPre a (s.drop i) &&
      ((List.range (s.length + 1)).any fun j =>
        decide (i + a.length ≤ j) && isPre b (s.drop j) &&
          !(((s.drop (i + a.length)).take (j - (i + a.length))).contains '\n'))

/-- `re.search` of one built-in platform pattern against a name. -/
def matchPat (s : List Char) : PPattern → Bool
  | .lit a => containsSub s a.data
  | .seq a b => matchSeq s a.data b.data

/-- `PLATFORM_PATTERNS`: platform slots in priority order, each with its
alternative patterns. -/
def PLATFORM_PATTERNS : List (String × List PPattern) :=
  [("macos_arm64",
    [.seq "darwin" "arm64", .seq "darwin" "aarch64", .seq "macos" "arm64",
     .seq "macos" "aarch64", .seq "apple" "arm64", .seq "apple" "aarch64",
     .seq "osx" "arm64", .seq "osx" "aarch64", .seq "mac" "arm64",
     .seq "mac" "aarch64"]),
   ("macos_x86_64",
    [.seq "darwin" "x86_64", .seq "darwin" "amd64", .seq "macos" "x86_64",
     .seq "macos" "amd64", .seq "apple" "x86_64", .seq "apple" "amd64",
     .seq "osx" "x86_64", .seq "osx" "amd64", .seq "mac" "x86_64",
     .seq "mac" "amd64", .lit "darwin64"]),
   ("linux_arm64", [.seq "linux" "arm64", .seq "linux" "aarch64"]),
   ("linux_x86_64", [.seq "linux" "x86_64", .seq "linux" "amd64", .lit "linux64"])]

/-- `ARCHIVE_EXTENSIONS`. -/
def ARCHIVE_EXTENSIONS : List String :=
  [".tar.gz", ".tgz", ".zip", ".tar.xz", ".tar.bz2"]

/-- Python `str.lower` (ASCII range, as used on asset names). -/
def lowerL (s : List Char) : List Char := s.map Char.toLower

/-- Whether the lowercased name ends in a recognized archive extension. -/
def hasArchiveExt (assetName : String) : Bool :=
  ARCHIVE_EXTENSIONS.any fun ext => ext.data.isSuffixOf (lowerL assetName.data)

/-- `detect_platform`: reject non-archive names, then return the first
platform slot (in `PLATFORM_PATTERNS` order) with a matching pattern. -/
def detect_platform (assetName : String) : Option String :=
  let nameLower := lowerL assetName.data
  if !hasArchiveExt assetName then none
  else (PLATFORM_PATTERNS.find? fun pp => pp.2.any (matchPat nameLower)).map
    (fun pp => pp.1)

/-- `match_asset_pattern`: case-insensitive substring containment. -/
def match_asset_pattern (assetName pattern : String) : Bool :=
  containsSub (lowerL assetName.data) (lowerL pattern.data)

/-- Classification of one asset name: first matching custom pattern when the
project declares custom patterns, built-in detection otherwise. -/
def classifyAsset (proj : Project) (assetName : String) : Option String :=
  if proj.asset_patterns.isEmpty then detect_platform assetName
  else (proj.asset_patterns.find? fun kp => match_asset_pattern assetName kp.2).map
    (fun kp => kp.1)

/-- `find_release_assets`: build the platform-slot to asset dict from a
release's raw asset list. -/
def find_release_assets (relAssets : List AssetData) (proj : Project) :
    List (String × Asset) :=
  relAssets.foldl
    (fun acc ad =>
      match classifyAsset proj ad.name with
      | some platform => pyInsert acc platform ⟨ad.name, ad.url, ""⟩
      | none => acc)
    []

/-! ## Version grouping, numeric ordering, and retention -/

/-- The major.minor key of a raw release. -/
def minorOfRel (rd : RelData) : String :=
  extract_major_minor (extract_version rd.tag_name)

/-- Group releases by major.minor in API order, skipping drafts and
prereleases, keeping the first-seen release of each minor (dict insertion
order preserved). -/
def groupReleasesByMinor (rels : List RelData) : List (String × RelData) :=
  rels.foldl
    (fun acc rd =>
      if rd.prerelease || rd.draft then acc
      else
        if (pyGet acc (minorOfRel rd)).isSome then acc
        else acc ++ [(minorOfRel rd, rd)])
    []

/-- The minors present after grouping, in first-seen order. -/
def minorKeys (rels : List RelData) : List String :=
  (groupReleasesByMinor rels).map (fun kv => kv.1)

/-- The Python list comprehension `[int(x) for x in v.split(".")]`: all
components parsed, or `none` when any `int` call would raise. -/
def mapParse : List (List Char) → Option (List Nat)
  | [] => some []
  | p :: ps => (parseNat? p).bind (fun n => (mapParse ps).map (fun ns => n :: ns))

/-- The Python sort key `[int(x) for x in v.split(".")]`, when every
component parses. -/
def pyIntListKey (v : String) : Option (List Nat) :=
  mapParse (splitDot v.data)

/-- Total variant of the sort key (used only where every component parses). -/
def keyD (v : String) : List Nat :=
  (splitDot v.data).map (fun s => (parseNat? s).getD 0)

/-- Python list-of-int comparison: lexicographic, a strict prefix is
smaller. -/
def lexLtN : List Nat → List Nat → Bool
  | [], [] => false
  | [], _ :: _ => true
  | _ :: _, [] => false
  | a :: as, b :: bs => if a < b then true else if b < a then false else lexLtN as bs

/-- Descending comparison of minors under the numeric key. -/
def geKey (a b : String) : Bool := !(lexLtN (keyD a) (keyD b))

/-- Stable insertion step of the descending sort. -/
def insertDescMinor (x : String) : List String → List String
  | [] => [x]
  | y :: ys => if geKey x y then x :: y :: ys else y :: insertDescMinor x ys

/-- `sorted(keys, key=..., reverse=True)`: stable descending sort of the
minors under the numeric key. -/
def sortDescMinors : List String → List String
  | [] => []
  | x :: xs => insertDescMinor x (sortDescMinors xs)

/-- The grouped minors sorted newest first. -/
def sortedMinors (rels : List RelData) : List String :=
  sortDescMinors (minorKeys rels)

/-- The latest minor (head of the descending order). -/
def latestMinor (rels : List RelData) : String :=
  (sortedMinors rels).headD ""

/-- `sorted_versions[:keep_versions + 1]`: the retention window. -/
def versionsToKeepOf (sortedVersions : List String) (keepVersions : Nat) :
    List String :=
  sortedVersions.take (keepVersions + 1)

/-! ## Formula rendering (`generate_formula`) -/

/-- The Ruby interpolation expression substituted for the release tag in
asset URLs. -/
def versionTemplate : String := "#\x7bversion\x7d"

/-- The rendered asset URL: the release tag replaced by `v` followed by the
version template expression. -/
def renderAssetUrl (assetUrl tag : String) : String :=
  pyReplace assetUrl tag ("v" ++ versionTemplate)

/-- Ruby evaluation of the template: each occurrence of the template
expression replaced by the declared version. -/
def evalVersionTemplate (s version : String) : String :=
  pyReplace s versionTemplate version

/-- Splitting at every hyphen or underscore, as `re.split(r"[-_]", name)`. -/
def splitDU : List Char → List (List Char)
  | [] => [[]]
  | c :: cs =>
    match splitDU cs with
    | [] => [[]]
    | w :: ws => if c = '-' || c = '_' then [] :: w :: ws else (c :: w) :: ws

/-- Python `str.capitalize`: first character uppercased, the rest
lowercased. -/
def pyCapitalize : List Char → List Char
  | [] => []
  | c :: cs => c.toUpper :: cs.map Char.toLower

/-- Class-like identifier from the project name. -/
def classNameBase (projName : String) : String :=
  String.mk (((splitDU projName.data).map pyCapitalize).flatten)

/-- Formula class name, with the `AT<major><minor>` suffix for pinned
formulas. -/
def formulaClassName (proj : Project) (release : Release) (isVersioned : Bool) :
    String :=
  if isVersioned then
    classNameBase proj.name ++ "AT" ++ pyReplace release.major_minor "." ""
  else classNameBase proj.name

/-- Header of a rendered formula. -/
def formulaHeader (proj : Project) (release : Release) (isVersioned : Bool) :
    String :=
  "class " ++ formulaClassName proj release isVersioned ++ " < Formula\n" ++
    "  desc \"" ++ proj.description ++ "\"\n" ++
    "  homepage \"" ++ proj.homepage ++ "\"\n" ++
    "  license \"" ++ proj.license ++ "\"\n" ++
    "  version \"" ++ release.version ++ "\"\n\n"

/-- One OS block of a rendered formula: an architecture branch when both
variants exist, a single unconditional pair when one exists, nothing when
none exists. -/
def osBlock (osName : String) (armAsset x86Asset : Option Asset) (tag : String) :
    String :=
  match armAsset, x86Asset with
  | none, none => ""
  | some a, some b =>
    "  on_" ++ osName ++ " do\n    if Hardware::CPU.arm?\n      url \"" ++
      renderAssetUrl a.url tag ++ "\"\n      sha256 \"" ++ a.sha256 ++
      "\"\n    else\n      url \"" ++ renderAssetUrl b.url tag ++
      "\"\n      sha256 \"" ++ b.sha256 ++ "\"\n    end\n  end\n\n"
  | some a, none =>
    "  on_" ++ osName ++ " do\n    url \"" ++ renderAssetUrl a.url tag ++
      "\"\n    sha256 \"" ++ a.sha256 ++ "\"\n  end\n\n"
  | none, some b =>
    "  on_" ++ osName ++ " do\n    url \"" ++ renderAssetUrl b.url tag ++
      "\"\n    sha256 \"" ++ b.sha256 ++ "\"\n  end\n\n"

/-- Trailing install and test blocks of a rendered formula. -/
def formulaFooter (proj : Project) : String :=
  "  def install\n    bin.install \"" ++ proj.binary_name ++
    "\"\n  end\n\n  test do\n    assert_match version.to_s, shell_output(\"#\x7bbin\x7d/" ++
    proj.binary_name ++ " --version\")\n  end\nend\n"

/-- `generate_formula`: the full rendered formula text. -/
def generate_formula (proj : Project) (release : Release) (isVersioned : Bool) :
    String :=
  formulaHeader proj release isVersioned ++
    osBlock "macos" (pyGet release.assets "macos_arm64")
      (pyGet release.assets "macos_x86_64") release.tag ++
    osBlock "linux" (pyGet release.assets "linux_arm64")
      (pyGet release.assets "linux_x86_64") release.tag ++
    formulaFooter proj

/-! ## Repository metadata defaults -/

/-- The JSON value of a repository's `license` field, when the key is
present: `null` or an object of string fields. -/
inductive LicenseJ where
  | jnull
  | jobj (fields : List (String × String))
deriving DecidableEq, Repr

/-- Repository metadata used for defaulting: `description` (absent-or-null
modelled as `none`) and `license` (absent key modelled as `none`). -/
structure RepoInfo where
  description : Option String
  license : Option LicenseJ
deriving DecidableEq, Repr

/-- `repo_info.get("license", {})` followed by
`license_info.get("spdx_id", "MIT") if license_info else "MIT"`. -/
def resolveLicense (li : Option LicenseJ) : String :=
  match li.getD (LicenseJ.jobj []) with
  | .jnull => "MIT"
  | .jobj fields =>
    if fields.isEmpty then "MIT"
    else ((fields.find? (fun kv => kv.1 == "spdx_id")).map (fun kv => kv.2)).getD "MIT"

/-- `repo_info.get("description", "") or f"{project.name} CLI tool"`. -/
def resolveDescription (projName : String) (d : Option String) : String :=
  match d with
  | some s => if s = "" then projName ++ " CLI tool" else s
  | none => projName ++ " CLI tool"

/-- The metadata-defaulting step of `process_project`: when description or
license is unset, fetch repository info and fill the unset ones. -/
def fillMeta (p : Project) (repo : RepoInfo) : Project :=
  if p.description = "" || p.license = "" then
    { p with
      description :=
        if p.description = "" then resolveDescription p.name repo.description
        else p.description,
      license := if p.license = "" then resolveLicense repo.license else p.license }
  else p

/-! ## Per-project processing (`process_project`, write phase) -/

/-- Attach checksums to all matched assets (`compute_sha256` modelled as an
oracle from URL to digest). -/
def withShas (shaOf : String → String) (assets : List (String × Asset)) :
    List (String × Asset) :=
  assets.map (fun pa => (pa.1, { pa.2 with sha256 := shaOf pa.2.url }))

/-- The releases actually generated: for each retained minor, the grouped
release with its classified, checksummed assets; minors with no matched
assets are skipped. -/
def generatedReleases (p : Project) (rels : List RelData)
    (shaOf : String → String) : List (String × Release) :=
  (versionsToKeepOf (sortedMinors rels) p.keep_versions).filterMap
    (fun mm =>
      match pyGet (groupReleasesByMinor rels) mm with
      | none => none
      | some rd =>
        let assets := find_release_assets rd.assets p
        if assets.isEmpty then none
        else
          some (mm,
            { tag := rd.tag_name, version := extract_version rd.tag_name,
              major_minor := mm, assets := withShas shaOf assets }))

/-- One iteration of the write loop: the canonical formula when this minor
is the latest, plus the pinned formula when `keep_versions > 0`; nothing in
dry-run mode. -/
def writeStep (p : Project) (latest : String) (dryRun : Bool)
    (acc : List (String × String)) (mr : String × Release) :
    List (String × String) :=
  let acc1 :=
    if mr.1 == latest && !dryRun then
      acc ++ [(p.name ++ ".rb", generate_formula p mr.2 false)]
    else acc
  if decide (0 < p.keep_versions) && !dryRun then
    acc1 ++ [(p.name ++ "@" ++ mr.1 ++ ".rb", generate_formula p mr.2 true)]
  else acc1

/-- The formula files written (name, content), in write order: the canonical
formula for the latest minor, plus one pinned formula per generated minor
when `keep_versions > 0`; nothing is written in dry-run mode. -/
def writePlan (p : Project) (latest : String)
    (generated : List (String × Release)) (dryRun : Bool) :
    List (String × String) :=
  generated.foldl (writeStep p latest dryRun) []

/-- `process_project` (write phase): `none` models a failed project (no
releases, no valid releases, unparseable sort keys, or no processable
releases); `some (writes, minors)` gives the written files and the minors of
the generated releases (the retained set used by cleanup). -/
def processProject (proj : Project) (repo : RepoInfo) (rels : List RelData)
    (shaOf : String → String) (dryRun : Bool) :
    Option (List (String × String) × List String) :=
  let p := fillMeta proj repo
  if rels.isEmpty then none
  else if (groupReleasesByMinor rels).isEmpty then none
  else if !((minorKeys rels).all fun v => (pyIntListKey v).isSome) then none
  else
    let generated := generatedReleases p rels shaOf
    if generated.isEmpty then none
    else some (writePlan p (latestMinor rels) generated dryRun,
      generated.map (fun mr => mr.1))

/-! ## Cleanup of stale pinned formulas -/

/-- `find_existing_versioned_formulas`: whether a file name matches the glob
`f"{project_name}@*.rb"` (for project names free of glob metacharacters):
literal prefix `name@`, literal suffix `.rb`, and no path separator in
between. -/
def globPinned (projectName fn : String) : Bool :=
  let pre := projectName.data ++ ['@']
  isPre pre fn.data && [ '.', 'r', 'b'].isSuffixOf fn.data &&
    decide (pre.length + 3 ≤ fn.data.length) &&
    !(((fn.data.drop pre.length).take (fn.data.length - pre.length - 3)).contains '/')

/-- Parse `name@(\d+\.\d+)\.rb` against a suffix of the file name, anchored
at the end: the digits-dot-digits group when the shape matches exactly. -/
def parsePinnedAt (s name : List Char) : Option String :=
  if isPre name s then
    match s.drop name.length with
    | '@' :: r2 =>
      let a := r2.takeWhile Char.isDigit
      match r2.dropWhile Char.isDigit with
      | '.' :: r4 =>
        let b := r4.takeWhile Char.isDigit
        if a.isEmpty || b.isEmpty then none
        else if r4.dropWhile Char.isDigit = ['.', 'r', 'b'] then
          some (String.mk (a ++ '.' :: b))
        else none
      | _ => none
    | _ => none
  else none

/-- `re.search(rf"{name}@(\d+\.\d+)\.rb$", fn)`: the version group of the
leftmost match ending at the end of the file name. -/
def parsePinnedVersion (projectName fn : String) : Option String :=
  (List.range (fn.data.length + 1)).findSome?
    (fun i => parsePinnedAt (fn.data.drop i) projectName.data)

/-- Whether a file is a stale pinned formula of the project: it matches the
glob, its regex version group parses, and that minor is not retained. -/
def isStalePinned (projectName : String) (keepVersions : List String)
    (fn : String) : Bool :=
  globPinned projectName fn &&
    match parsePinnedVersion projectName fn with
    | some v => !(keepVersions.contains v)
    | none => false

/-- `cleanup_old_versions` over a directory listing: returns the reported
removals and the resulting listing (unchanged in dry-run mode). -/
def cleanup_old_versions (files : List String) (projectName : String)
    (keepVersions : List String) (dryRun : Bool) :
    List String × List String :=
  let existing := files.filter (fun fn => globPinned projectName fn)
  let removed := existing.filter
    (fun fn =>
      match parsePinnedVersion projectName fn with
      | some v => !(keepVersions.contains v)
      | none => false)
  (removed, if dryRun then files else files.filter (fun fn => !(removed.contains fn)))

/-! ## Helper lemmas -/

/-- Dropping the leading run of `v` characters: the input decomposes as a
block of `v`s followed by the result, and the result does not start with
`v`. -/
theorem dropWhileV_spec (l : List Char) :
    ∃ k, l = List.replicate k 'v' ++ l.dropWhile (fun c => c = 'v') ∧
      (l.dropWhile (fun c => c = 'v')).head? ≠ some 'v' := by
  induction l with
  | nil => exact ⟨0, by simp⟩
  | cons c cs ih =>
    by_cases h : c = 'v'
    · obtain ⟨k, hk, hh⟩ := ih
      subst h
      refine ⟨k + 1, ?_, ?_⟩
      · rw [List.dropWhile_cons_of_pos (by simp)]
        calc 'v' :: cs
            = 'v' :: (List.replicate k 'v' ++ cs.dropWhile (fun c => c = 'v')) := by
              rw [← hk]
          _ = List.replicate (k + 1) 'v' ++ cs.dropWhile (fun c => c = 'v') := by
              simp [List.replicate_succ]
      · rw [List.dropWhile_cons_of_pos (by simp)]
        exact hh
    · refine ⟨0, ?_, ?_⟩
      · rw [List.dropWhile_cons_of_neg (by simp [h])]
        simp
      · rw [List.dropWhile_cons_of_neg (by simp [h])]
        simp [h]

/-! ## Claim C4 -/

/-- Claim C4 is false as stated: the tag `vv1.2.3` begins with the prefix
letter `v`, yet extraction returns `1.2.3`, not `v1.2.3` (it removes both
leading letters, not exactly one). -/
theorem c4_counterexample :
    "vv1.2.3".data.head? = some 'v' ∧
      extract_version "vv1.2.3" = "1.2.3" ∧
      extract_version "vv1.2.3" ≠ "v1.2.3" := by
  decide

/-- Claim C4 (amended): extraction removes the entire leading run of `v`
characters. For a tag whose leading `v` is not followed by another `v`,
exactly that one letter is removed; a tag not beginning with `v` is
returned unchanged; in general the tag is a block of `v`s followed by the
extraction result, which does not begin with `v`. -/
theorem c4_amended (t : String) (c : Char) (cs : List Char) :
    (t.data.head? ≠ some 'v' → extract_version t = t) ∧
      (t.data = 'v' :: c :: cs → c ≠ 'v' → extract_version t = String.mk (c :: cs)) ∧
      (t.data = ['v'] → extract_version t = "") ∧
      (∃ k, t.data = List.replicate k 'v' ++ (extract_version t).data ∧
        (extract_version t).data.head? ≠ some 'v') := by
  refine ⟨?_, ?_, ?_, ?_⟩
  · intro h
    have e : t.data.dropWhile (fun c => c = 'v') = t.data := by
      cases hd : t.data with
      | nil => simp
      | cons x xs =>
        have hx : x ≠ 'v' := fun hv => h (by rw [hd, hv]; rfl)
        simp [List.dropWhile_cons, hx]
    rw [extract_version, e, strMk_data]
  · intro hd hc
    rw [extract_version, hd]
    simp [List.dropWhile_cons, hc]
  · intro hd
    rw [extract_version, hd]
    decide
  · have h := dropWhileV_spec t.data
    rw [extract_version]
    exact h

/-- Witness for the amended C4 at the tag `v1.2.3`. -/
theorem c4_witness : extract_version "v1.2.3" = String.mk ('1' :: ".2.3".data) :=
  (c4_amended "v1.2.3" '1' ".2.3".data).2.1 (by decide) (by decide)

/-! ## Claim C6 -/

/-- Claim C6: the retention window is exactly the first `keep_versions + 1`
entries of the descending minor order (all entries when fewer exist); with
`keep_versions = 0` exactly one minor is retained, and with four minors and
`keep_versions = 1` exactly the first two are retained. -/
theorem c6_thm (l : List String) (k : Nat) (h : l ≠ []) :
    (versionsToKeepOf l k).length = min (k + 1) l.length ∧
      (∃ rest, l = versionsToKeepOf l k ++ rest) ∧
      versionsToKeepOf l 0 = [l.headD ""] ∧
      versionsToKeepOf ["2.1", "2.0", "1.9", "1.8"] 1 = ["2.1", "2.0"] := by
  refine ⟨?_, ⟨l.drop (k + 1), ?_⟩, ?_, by decide⟩
  · simp [versionsToKeepOf]
  · rw [versionsToKeepOf, List.take_append_drop]
  · cases l with
    | nil => exact absurd rfl h
    | cons x xs => simp [versionsToKeepOf]

/-- Witness for C6 at the four-minor example with `keep_versions = 0`. -/
theorem c6_witness :
    versionsToKeepOf ["2.1", "2.0", "1.9", "1.8"] 0 =
      [(["2.1", "2.0", "1.9", "1.8"] : List String).headD ""] :=
  (c6_thm ["2.1", "2.0", "1.9", "1.8"] 0 (by decide)).2.2.1

/-! ## Claim C2 -/

/-- A positive skip counter consumes exactly that many characters of the
scan without emitting. -/
theorem replAux_skip (pat rep l t : List Char) :
    replAux pat rep (l ++ t) l.length = replAux pat rep t 0 := by
  induction l with
  | nil => rfl
  | cons c cs ih => exact ih

/-- Core round trip: replacing the tag `v<ver>` by the literal template
`v#{version}` and then replacing the template expression `#{version}` by
`<ver>` is the identity on strings free of `#`. -/
theorem replAux_roundtrip (ver Et : List Char) :
    ∀ n s, s.length ≤ n → ('#' : Char) ∉ s →
      replAux ('#' :: Et) ver
        (replAux ('v' :: ver) ('v' :: '#' :: Et) s 0) 0 = s := by
  intro n
  induction n with
  | zero =>
    intro s hs _
    have hnil : s = [] := List.eq_nil_of_length_eq_zero (Nat.le_zero.mp hs)
    subst hnil
    rfl
  | succ n ih =>
    intro s hs hmem
    cases s with
    | nil => rfl
    | cons c cs =>
      have hc : c ≠ '#' := fun h => hmem (h ▸ List.mem_cons_self c cs)
      have hcs : ('#' : Char) ∉ cs := fun h => hmem (List.mem_cons_of_mem c h)
      have hlen : cs.length ≤ n := by
        simp only [List.length_cons] at hs
        omega
      by_cases hp : isPre ('v' :: ver) (c :: cs) = true
      · have hvc : 'v' = c ∧ isPre ver cs = true := by simpa [isPre] using hp
        obtain ⟨cs2, rfl⟩ := isPre_ex hvc.2
        have hl2 : cs2.length ≤ n := by
          simp only [List.length_append] at hlen
          omega
        have hm2 : ('#' : Char) ∉ cs2 := fun h => hcs (List.mem_append_right ver h)
        have e1 : replAux ('v' :: ver) ('v' :: '#' :: Et) (c :: (ver ++ cs2)) 0 =
            'v' :: '#' :: (Et ++ replAux ('v' :: ver) ('v' :: '#' :: Et) cs2 0) := by
          simp only [replAux]
          rw [if_pos hp]
          have hlen1 : ('v' :: ver).length - 1 = ver.length := by simp
          rw [hlen1, replAux_skip]
          simp
        rw [e1]
        have s1 : isPre ('#' :: Et)
            ('v' :: '#' :: (Et ++ replAux ('v' :: ver) ('v' :: '#' :: Et) cs2 0)) =
              false := by
          simp [isPre]
        have e2 : replAux ('#' :: Et) ver
            ('v' :: '#' :: (Et ++ replAux ('v' :: ver) ('v' :: '#' :: Et) cs2 0)) 0 =
              'v' :: (ver ++ cs2) := by
          simp only [replAux]
          rw [if_neg (by simp [s1])]
          have s2 : isPre ('#' :: Et)
              ('#' :: (Et ++ replAux ('v' :: ver) ('v' :: '#' :: Et) cs2 0)) = true := by
            simp [isPre, isPre_append]
          rw [if_pos s2]
          have hlen2 : ('#' :: Et).length - 1 = Et.length := by simp
          rw [hlen2, replAux_skip]
          rw [ih _ hl2 hm2]
        rw [e2, hvc.1]
      · have e1 : replAux ('v' :: ver) ('v' :: '#' :: Et) (c :: cs) 0 =
            c :: replAux ('v' :: ver) ('v' :: '#' :: Et) cs 0 := by
          simp only [replAux]
          rw [if_neg hp]
        rw [e1]
        have s1 : isPre ('#' :: Et)
            (c :: replAux ('v' :: ver) ('v' :: '#' :: Et) cs 0) = false := by
          simp [isPre, Ne.symm hc]
        simp only [replAux]
        rw [if_neg (by simp [s1])]
        rw [ih _ hlen hcs]

/-- Claim C2 is false as stated: for the tag `1.2.3` (no `v` prefix), whose
asset URL contains it as a substring, the rendered URL evaluated against the
declared version does not reproduce the original URL. -/
theorem c2_counterexample :
    containsStr "https://x/1.2.3/t.tar.gz" "1.2.3" = true ∧
      evalVersionTemplate (renderAssetUrl "https://x/1.2.3/t.tar.gz" "1.2.3")
          (extract_version "1.2.3") ≠ "https://x/1.2.3/t.tar.gz" := by
  decide

/-- Claim C2 (amended): the round trip holds whenever the release tag is
exactly `v` followed by the declared version (the shape produced by
`extract_version` for tags with a single leading `v`) and the asset URL
contains no `#` character. -/
theorem c2_amended (url tag version : String) (h1 : tag = "v" ++ version)
    (h2 : ('#' : Char) ∉ url.data) :
    evalVersionTemplate (renderAssetUrl url tag) version = url := by
  have htag : tag.data = 'v' :: version.data := by
    rw [h1, strData_append]
    rfl
  have hrep : ("v" ++ versionTemplate).data = 'v' :: '#' :: "\x7bversion\x7d".data := by
    decide
  have hE : versionTemplate.data = '#' :: "\x7bversion\x7d".data := by decide
  rw [evalVersionTemplate, renderAssetUrl]
  simp only [pyReplace]
  rw [htag, hrep, hE]
  show String.mk (replAux ('#' :: "\x7bversion\x7d".data) version.data
    (replAux ('v' :: version.data) ('v' :: '#' :: "\x7bversion\x7d".data) url.data 0) 0) = url
  rw [replAux_roundtrip version.data "\x7bversion\x7d".data url.data.length url.data
    le_rfl h2, strMk_data]

/-- Witness for the amended C2 at a release with tag `v1.2.3`. -/
theorem c2_witness :
    evalVersionTemplate (renderAssetUrl "https://x/v1.2.3/t.tar.gz" "v1.2.3")
        "1.2.3" = "https://x/v1.2.3/t.tar.gz" :=
  c2_amended "https://x/v1.2.3/t.tar.gz" "v1.2.3" "1.2.3" (by decide) (by decide)

/-! ## Claim C7 -/

/-- The pattern group of one platform slot. -/
def slotPatterns (slot : String) : List PPattern :=
  ((PLATFORM_PATTERNS.find? (fun pp => pp.1 == slot)).map (fun pp => pp.2)).getD []

/-- Whether the pattern group of one platform slot matches the lowercased
asset name. -/
def slotMatches (assetName slot : String) : Bool :=
  (slotPatterns slot).any (matchPat (lowerL assetName.data))

/-- Claim C7: built-in detection returns none for names without a recognized
archive extension; otherwise it returns the first slot, in the fixed order
macOS-ARM64, macOS-x86_64, Linux-ARM64, Linux-x86_64, whose pattern group
matches; `tool-darwin-arm64.tar.gz` classifies as macOS-ARM64 and
`tool-darwin-arm64.sig` as none. -/
theorem c7_thm (name : String) :
    (hasArchiveExt name = false → detect_platform name = none) ∧
      (hasArchiveExt name = true → detect_platform name =
        (if slotMatches name "macos_arm64" then some "macos_arm64"
         else if slotMatches name "macos_x86_64" then some "macos_x86_64"
         else if slotMatches name "linux_arm64" then some "linux_arm64"
         else if slotMatches name "linux_x86_64" then some "linux_x86_64"
         else none)) ∧
      detect_platform "tool-darwin-arm64.tar.gz" = some "macos_arm64" ∧
      detect_platform "tool-darwin-arm64.sig" = none := by
  refine ⟨?_, ?_, by decide, by decide⟩
  · intro h
    simp [detect_platform, h]
  · intro h
    have hdp : detect_platform name =
        (PLATFORM_PATTERNS.find? fun pp =>
          pp.2.any (matchPat (lowerL name.data))).map (fun pp => pp.1) := by
      simp [detect_platform, h]
    have hPP : PLATFORM_PATTERNS =
        [("macos_arm64", slotPatterns "macos_arm64"),
         ("macos_x86_64", slotPatterns "macos_x86_64"),
         ("linux_arm64", slotPatterns "linux_arm64"),
         ("linux_x86_64", slotPatterns "linux_x86_64")] := by decide
    rw [hdp, hPP]
    by_cases b1 : slotMatches name "macos_arm64"
    · rw [List.find?_cons_of_pos _ (by simpa [slotMatches] using b1)]
      simp [b1]
    · rw [List.find?_cons_of_neg _ (by simpa [slotMatches] using b1)]
      by_cases b2 : slotMatches name "macos_x86_64"
      · rw [List.find?_cons_of_pos _ (by simpa [slotMatches] using b2)]
        simp [b1, b2]
      · rw [List.find?_cons_of_neg _ (by simpa [slotMatches] using b2)]
        by_cases b3 : slotMatches name "linux_arm64"
        · rw [List.find?_cons_of_pos _ (by simpa [slotMatches] using b3)]
          simp [b1, b2, b3]
        · rw [List.find?_cons_of_neg _ (by simpa [slotMatches] using b3)]
          by_cases b4 : slotMatches name "linux_x86_64"
          · rw [List.find?_cons_of_pos _ (by simpa [slotMatches] using b4)]
            simp [b1, b2, b3, b4]
          · rw [List.find?_cons_of_neg _ (by simpa [slotMatches] using b4)]
            simp [b1, b2, b3, b4]

/-- Witness for C7: the ordered-first-match characterization evaluated at a
Linux asset name. -/
theorem c7_witness :
    detect_platform "foo-linux-amd64.zip" =
      (if slotMatches "foo-linux-amd64.zip" "macos_arm64" then some "macos_arm64"
       else if slotMatches "foo-linux-amd64.zip" "macos_x86_64" then some "macos_x86_64"
       else if slotMatches "foo-linux-amd64.zip" "linux_arm64" then some "linux_arm64"
       else if slotMatches "foo-linux-amd64.zip" "linux_x86_64" then some "linux_x86_64"
       else none) :=
  (c7_thm "foo-linux-amd64.zip").2.1 (by decide)

/-! ## Claim C3 -/

/-- The number of platform slots whose pattern group matches a name. -/
def matchedSlotCount (assetName : String) : Nat :=
  PLATFORM_PATTERNS.countP (fun pp => pp.2.any (matchPat (lowerL assetName.data)))

/-- Claim C3 is false as stated: the asset `linux-arm64-amd64.zip` matches
two platform slots (Linux-ARM64 and Linux-x86_64), yet it still appears in
the release mapping (under the first match). -/
theorem c3_counterexample :
    pyGet (find_release_assets [⟨"linux-arm64-amd64.zip", "u"⟩]
        ⟨"o/p", "p", "d", "MIT", "h", "p", 0, []⟩) "linux_arm64" =
      some ⟨"linux-arm64-amd64.zip", "u", ""⟩ ∧
      matchedSlotCount "linux-arm64-amd64.zip" = 2 := by
  decide

/-- Invariant of the asset-collection fold: every mapping entry was produced
by classification of its own asset name to that slot. -/
theorem pyGet_foldl_classify (proj : Project) (L : List AssetData) :
    ∀ (acc : List (String × Asset)),
      (∀ p a, pyGet acc p = some a → classifyAsset proj a.name = some p) →
      ∀ p a,
        pyGet
          (L.foldl
            (fun acc ad =>
              match classifyAsset proj ad.name with
              | some platform => pyInsert acc platform ⟨ad.name, ad.url, ""⟩
              | none => acc)
            acc) p = some a →
        classifyAsset proj a.name = some p := by
  induction L with
  | nil => exact fun acc hacc p a h => hacc p a h
  | cons ad rest ih =>
    intro acc hacc p a h
    rw [List.foldl_cons] at h
    refine ih _ ?_ p a h
    intro p2 a2 h2
    cases hcl : classifyAsset proj ad.name with
    | none =>
      rw [hcl] at h2
      exact hacc p2 a2 h2
    | some plat =>
      rw [hcl] at h2
      by_cases hp2 : p2 = plat
      · subst hp2
        rw [pyGet_pyInsert_self] at h2
        cases h2
        exact hcl
      · rw [pyGet_pyInsert_ne _ _ _ _ hp2] at h2
        exact hacc p2 a2 h2

/-- Claim C3 (amended): an asset appears in a release's platform-slot
mapping only if classification assigned its name to that very slot, which
requires at least one (the first, not a unique) matching pattern: a matching
group for built-in detection, a matching custom pattern otherwise. -/
theorem c3_amended (L : List AssetData) (proj : Project) (p : String) (a : Asset)
    (n q : String) :
    (pyGet (find_release_assets L proj) p = some a →
      classifyAsset proj a.name = some p) ∧
      (detect_platform n = some q →
        (PLATFORM_PATTERNS.any fun g =>
          g.1 == q && g.2.any (matchPat (lowerL n.data))) = true) ∧
      (¬ proj.asset_patterns.isEmpty → classifyAsset proj n = some q →
        (proj.asset_patterns.any fun kp =>
          kp.1 == q && match_asset_pattern n kp.2) = true) := by
  refine ⟨?_, ?_, ?_⟩
  · intro h
    refine pyGet_foldl_classify proj L [] ?_ p a h
    intro p0 a0 h0
    simp [pyGet] at h0
  · intro h
    rw [detect_platform] at h
    by_cases hext : hasArchiveExt n
    · simp only [hext, Bool.not_true, Bool.false_eq_true, if_false] at h
      obtain ⟨pp, hfind, hq⟩ := Option.map_eq_some'.mp h
      have hpred := List.find?_some hfind
      have hmem := List.mem_of_find?_eq_some hfind
      rw [List.any_eq_true]
      exact ⟨pp, hmem, by simp_all⟩
    · simp [Bool.eq_false_iff.mpr hext] at h
  · intro hne h
    rw [classifyAsset, if_neg hne] at h
    obtain ⟨kp, hfind, hq⟩ := Option.map_eq_some'.mp h
    have hpred := List.find?_some hfind
    have hmem := List.mem_of_find?_eq_some hfind
    rw [List.any_eq_true]
    exact ⟨kp, hmem, by simp_all⟩

/-- Witness for the amended C3: a concrete mapping entry implies its
classification. -/
theorem c3_witness :
    classifyAsset ⟨"o/p", "p", "d", "MIT", "h", "p", 0, []⟩
        "app-linux-amd64.tar.gz" = some "linux_x86_64" :=
  (c3_amended [⟨"app-linux-amd64.tar.gz", "u"⟩]
      ⟨"o/p", "p", "d", "MIT", "h", "p", 0, []⟩ "linux_x86_64"
      ⟨"app-linux-amd64.tar.gz", "u", ""⟩ "" "").1 (by decide)

/-! ## Claim C5 -/

/-- The first non-draft, non-prerelease release (in API order) with a given
major.minor key. -/
def firstValidWithMinor (rels : List RelData) (mm : String) : Option RelData :=
  (rels.filter (fun rd => !(rd.prerelease || rd.draft))).find?
    (fun rd => minorOfRel rd == mm)

/-- Appending a single binding to a dict affects lookups only when the key
was previously absent. -/
theorem pyGet_append_single {α : Type} (acc : List (String × α)) (k : String)
    (v : α) (mm : String) :
    pyGet (acc ++ [(k, v)]) mm =
      (pyGet acc mm <|> if k = mm then some v else none) := by
  induction acc with
  | nil =>
    show pyGet [(k, v)] mm = _
    rw [pyGet_cons]
    by_cases h : k = mm
    · simp [h, pyGet]
    · simp [h, pyGet]
  | cons kv rest ih =>
    obtain ⟨k1, v1⟩ := kv
    rw [List.cons_append, pyGet_cons, pyGet_cons, ih]
    by_cases h : k1 = mm
    · simp [h]
    · simp [h]

/-- The grouping fold keeps exactly the first-seen valid release per minor:
lookup in the accumulated dict extends lookup in the accumulator by the
first valid occurrence in the remaining releases. -/
theorem group_foldl_lookup (mm : String) :
    ∀ (rels : List RelData) (acc : List (String × RelData)),
      pyGet (rels.foldl
        (fun acc rd =>
          if rd.prerelease || rd.draft then acc
          else
            if (pyGet acc (minorOfRel rd)).isSome then acc
            else acc ++ [(minorOfRel rd, rd)]) acc) mm =
      (pyGet acc mm <|> firstValidWithMinor rels mm) := by
  intro rels
  induction rels with
  | nil =>
    intro acc
    show pyGet acc mm = (pyGet acc mm <|> firstValidWithMinor [] mm)
    have hfv : firstValidWithMinor [] mm = none := rfl
    rw [hfv]
    cases pyGet acc mm <;> rfl
  | cons rd rest ih =>
    intro acc
    simp only [List.foldl_cons]
    by_cases hv : (rd.prerelease || rd.draft) = true
    · rw [if_pos hv, ih]
      have hfv : firstValidWithMinor (rd :: rest) mm = firstValidWithMinor rest mm := by
        rw [firstValidWithMinor, List.filter_cons_of_neg (by simp [hv]), firstValidWithMinor]
      rw [hfv]
    · have hv2 : (rd.prerelease || rd.draft) = false := Bool.eq_false_iff.mpr hv
      rw [if_neg hv]
      have hfv : firstValidWithMinor (rd :: rest) mm =
          (if minorOfRel rd == mm then some rd else firstValidWithMinor rest mm) := by
        rw [firstValidWithMinor, List.filter_cons_of_pos (by simp [hv2])]
        by_cases hm : (minorOfRel rd == mm) = true
        · rw [@List.find?_cons_of_pos _ (fun rd => minorOfRel rd == mm) rd _ hm,
            if_pos hm]
        · rw [@List.find?_cons_of_neg _ (fun rd => minorOfRel rd == mm) rd _
            (by simpa using hm), if_neg hm]
          rfl
      by_cases hs : (pyGet acc (minorOfRel rd)).isSome = true
      · rw [if_pos hs, ih, hfv]
        by_cases hm : (minorOfRel rd == mm) = true
        · have hmm : minorOfRel rd = mm := by simpa using hm
          rw [if_pos hm]
          rw [hmm] at hs
          obtain ⟨w, hw⟩ := Option.isSome_iff_exists.mp hs
          rw [hw]
          rfl
        · rw [if_neg hm]
      · have hnone : pyGet acc (minorOfRel rd) = none := by
          cases hh : pyGet acc (minorOfRel rd)
          · rfl
          · rw [hh] at hs
            exact absurd rfl hs
        rw [if_neg hs, ih, hfv, pyGet_append_single]
        by_cases hm : (minorOfRel rd == mm) = true
        · have hmm : minorOfRel rd = mm := by simpa using hm
          rw [if_pos hm, if_pos hmm, ← hmm, hnone]
          rfl
        · have hmm : minorOfRel rd ≠ mm := by simpa using hm
          rw [if_neg hm, if_neg hmm]
          cases pyGet acc mm <;> rfl

/-- Lexicographic comparison of integer lists is irreflexive. -/
theorem lexLtN_irrefl (a : List Nat) : lexLtN a a = false := by
  induction a with
  | nil => rfl
  | cons x xs ih => simp [lexLtN, ih]

/-- Head characterization of the lexicographic comparison. -/
theorem lexLtN_cons_iff (x y : Nat) (xs ys : List Nat) :
    lexLtN (x :: xs) (y :: ys) = true ↔ x < y ∨ (x = y ∧ lexLtN xs ys = true) := by
  simp only [lexLtN]
  by_cases h1 : x < y
  · simp [h1]
  · by_cases h2 : y < x
    · simp [h1, h2]
      omega
    · have hxy : x = y := by omega
      simp [h1, h2, hxy]

/-- Lexicographic comparison of integer lists is transitive. -/
theorem lexLtN_trans :
    ∀ {a b c : List Nat},
      lexLtN a b = true → lexLtN b c = true → lexLtN a c = true := by
  intro a
  induction a with
  | nil =>
    intro b c hab hbc
    cases b with
    | nil => exact hbc
    | cons y ys =>
      cases c with
      | nil => simp [lexLtN] at hbc
      | cons z zs => rfl
  | cons x xs ih =>
    intro b c hab hbc
    cases b with
    | nil => simp [lexLtN] at hab
    | cons y ys =>
      cases c with
      | nil => simp [lexLtN] at hbc
      | cons z zs =>
        rw [lexLtN_cons_iff] at hab hbc ⊢
        rcases hab with h1 | ⟨h1, h1p⟩ <;> rcases hbc with h2 | ⟨h2, h2p⟩
        · exact Or.inl (by omega)
        · exact Or.inl (by omega)
        · exact Or.inl (by omega)
        · exact Or.inr ⟨by omega, ih h1p h2p⟩

/-- Lexicographic comparison is trichotomous on integer lists. -/
theorem lexLtN_trichotomy (a : List Nat) :
    ∀ b, lexLtN a b = true ∨ lexLtN b a = true ∨ a = b := by
  induction a with
  | nil =>
    intro b
    cases b with
    | nil => exact Or.inr (Or.inr rfl)
    | cons y ys => exact Or.inl rfl
  | cons x xs ih =>
    intro b
    cases b with
    | nil => exact Or.inr (Or.inl rfl)
    | cons y ys =>
      rcases Nat.lt_trichotomy x y with h | h | h
      · exact Or.inl ((lexLtN_cons_iff x y xs ys).mpr (Or.inl h))
      · rcases ih ys with h2 | h2 | h2
        · exact Or.inl ((lexLtN_cons_iff x y xs ys).mpr (Or.inr ⟨h, h2⟩))
        · exact Or.inr (Or.inl
            ((lexLtN_cons_iff y x ys xs).mpr (Or.inr ⟨h.symm, h2⟩)))
        · exact Or.inr (Or.inr (by rw [h, h2]))
      · exact Or.inr (Or.inl ((lexLtN_cons_iff y x ys xs).mpr (Or.inl h)))

/-- Lexicographic comparison of integer lists is asymmetric. -/
theorem lexLtN_asymm {a b : List Nat} (h : lexLtN a b = true) :
    lexLtN b a = false := by
  cases hx : lexLtN b a
  · rfl
  · have h2 := lexLtN_trans h hx
    rw [lexLtN_irrefl] at h2
    exact absurd h2 (by simp)

/-- Totality of the descending comparison: when one direction fails, the
other holds. -/
theorem geKey_total {a b : String} (h : geKey a b = false) : geKey b a = true := by
  have h1 : lexLtN (keyD a) (keyD b) = true := by
    rw [geKey] at h
    simpa using h
  rw [geKey]
  simp [lexLtN_asymm h1]

/-- Transitivity of the descending comparison. -/
theorem geKey_trans {a b c : String} (hab : geKey a b = true)
    (hbc : geKey b c = true) : geKey a c = true := by
  have h1 : lexLtN (keyD a) (keyD b) = false := by
    rw [geKey] at hab
    simpa using hab
  have h2 : lexLtN (keyD b) (keyD c) = false := by
    rw [geKey] at hbc
    simpa using hbc
  rw [geKey]
  simp only [Bool.not_eq_true']
  cases hx : lexLtN (keyD a) (keyD c)
  · rfl
  · exfalso
    rcases lexLtN_trichotomy (keyD b) (keyD a) with h3 | h3 | h3
    · have h4 := lexLtN_trans h3 hx
      rw [h2] at h4
      exact Bool.false_ne_true h4
    · rw [h1] at h3
      exact Bool.false_ne_true h3
    · rw [h3] at h2
      rw [hx] at h2
      exact absurd h2 (by simp)

/-- Insertion preserves the multiset of elements. -/
theorem perm_insertDescMinor (x : String) (l : List String) :
    (insertDescMinor x l).Perm (x :: l) := by
  induction l with
  | nil => exact List.Perm.refl _
  | cons y ys ih =>
    rw [insertDescMinor]
    by_cases h : geKey x y = true
    · rw [if_pos h]
    · rw [if_neg h]
      exact (ih.cons y).trans (List.Perm.swap x y ys)

/-- The descending sort is a permutation of its input. -/
theorem perm_sortDescMinors (l : List String) : (sortDescMinors l).Perm l := by
  induction l with
  | nil => exact List.Perm.refl _
  | cons x xs ih =>
    rw [sortDescMinors]
    exact (perm_insertDescMinor x (sortDescMinors xs)).trans (ih.cons x)

/-- Insertion into a descending-sorted list keeps it descending-sorted. -/
theorem sorted_insertDescMinor (x : String) (l : List String)
    (hl : l.Pairwise (fun a b => geKey a b = true)) :
    (insertDescMinor x l).Pairwise (fun a b => geKey a b = true) := by
  induction l with
  | nil => simp [insertDescMinor]
  | cons y ys ih =>
    rw [List.pairwise_cons] at hl
    obtain ⟨hy, hys⟩ := hl
    rw [insertDescMinor]
    by_cases h : geKey x y = true
    · rw [if_pos h]
      rw [List.pairwise_cons]
      constructor
      · intro z hz
        rcases List.mem_cons.mp hz with hzy | hzys
        · exact hzy ▸ h
        · exact geKey_trans h (hy z hzys)
      · rw [List.pairwise_cons]
        exact ⟨hy, hys⟩
    · rw [if_neg h]
      rw [List.pairwise_cons]
      constructor
      · intro z hz
        rcases List.mem_cons.mp ((perm_insertDescMinor x ys).mem_iff.mp hz) with
          hzx | hzys
        · rw [hzx]
          exact geKey_total (Bool.eq_false_iff.mpr h)
        · exact hy z hzys
      · exact ih hys

/-- The descending sort is pairwise descending under the numeric key. -/
theorem sorted_sortDescMinors (l : List String) :
    (sortDescMinors l).Pairwise (fun a b => geKey a b = true) := by
  induction l with
  | nil => simp [sortDescMinors]
  | cons x xs ih => exact sorted_insertDescMinor x (sortDescMinors xs) ih

/-- When every component parses, the Python sort key equals the total
variant used by the model sort. -/
theorem mapParse_eq_map (ps : List (List Char)) (h : (mapParse ps).isSome = true) :
    mapParse ps = some (ps.map (fun s => (parseNat? s).getD 0)) := by
  induction ps with
  | nil => rfl
  | cons p rest ih =>
    have e : mapParse (p :: rest) =
        (parseNat? p).bind (fun n => (mapParse rest).map (fun ns => n :: ns)) := rfl
    rw [e] at h
    cases hp : parseNat? p with
    | none =>
      rw [hp] at h
      simp at h
    | some n =>
      rw [hp] at h
      cases hr : mapParse rest with
      | none =>
        rw [hr] at h
        simp at h
      | some ns =>
        have ih2 := ih (by rw [hr]; rfl)
        rw [hr] at ih2
        have hns : ns = rest.map (fun s => (parseNat? s).getD 0) :=
          Option.some.inj ih2
        rw [e, hp, hr]
        simp only [Option.some_bind, Option.map_some', List.map_cons]
        rw [hns]
        simp [hp]

/-- The example release list of the claim: minors 2.1, 2.1 (older patch),
2.0, 1.9 in API order. -/
def exC5 : List RelData :=
  [⟨"v2.1.3", false, false, []⟩, ⟨"v2.1.1", false, false, []⟩,
   ⟨"v2.0.5", false, false, []⟩, ⟨"v1.9.0", false, false, []⟩]

/-- Claim C5: grouping keeps exactly the first-seen valid release of each
minor; the sorted minors are pairwise descending under the numeric key and a
permutation of the grouped minors; the numeric key is the parsed integer
list wherever it parses; and on the example [2.1, 2.1, 2.0, 1.9] the first
2.1 release is kept and the sort yields [2.1, 2.0, 1.9]. -/
theorem c5_thm (rels : List RelData) (mm : String)
    (hparse : ∀ v ∈ minorKeys rels, (pyIntListKey v).isSome = true) :
    pyGet (groupReleasesByMinor rels) mm = firstValidWithMinor rels mm ∧
      (sortedMinors rels).Pairwise (fun a b => geKey a b = true) ∧
      (sortedMinors rels).Perm (minorKeys rels) ∧
      (∀ v ∈ minorKeys rels, pyIntListKey v = some (keyD v)) ∧
      minorKeys exC5 = ["2.1", "2.0", "1.9"] ∧
      pyGet (groupReleasesByMinor exC5) "2.1" = some ⟨"v2.1.3", false, false, []⟩ ∧
      sortedMinors exC5 = ["2.1", "2.0", "1.9"] := by
  refine ⟨?_, ?_, ?_, ?_, by decide, by decide, by decide⟩
  · have h := group_foldl_lookup mm rels []
    rw [show pyGet ([] : List (String × RelData)) mm = none from rfl] at h
    rw [show ((none : Option RelData) <|> firstValidWithMinor rels mm) =
      firstValidWithMinor rels mm from rfl] at h
    exact h
  · exact sorted_sortDescMinors (minorKeys rels)
  · exact perm_sortDescMinors (minorKeys rels)
  · intro v hv
    have hs := hparse v hv
    rw [pyIntListKey] at hs ⊢
    rw [keyD]
    exact mapParse_eq_map _ hs

/-- Witness for C5 at the example releases and minor 2.1. -/
theorem c5_witness :
    pyGet (groupReleasesByMinor exC5) "2.1" = firstValidWithMinor exC5 "2.1" :=
  (c5_thm exC5 "2.1" (by decide)).1

/-! ## Claim C8 -/

/-- A pattern is found at the head of a concatenation. -/
theorem containsSub_here (y pat : List Char) : containsSub (pat ++ y) pat = true := by
  have h := containsSub_intro [] y pat
  simpa using h

/-- Dropping the length of a prefixed block plus an offset lands past the
block. -/
theorem drop_len_append (z s : List Char) (i : Nat) :
    (z ++ s).drop (z.length + i) = s.drop i := by
  induction z with
  | nil => simp
  | cons c zs ih =>
    have hlen : (c :: zs).length + i = (zs.length + i) + 1 := by
      simp [List.length_cons]
      omega
    rw [List.cons_append, hlen, List.drop_succ_cons, ih]

/-- Substring containment is preserved by prepending. -/
theorem containsSub_append_left (z : List Char) {s pat : List Char}
    (h : containsSub s pat = true) : containsSub (z ++ s) pat = true := by
  rw [containsSub_true_iff] at h ⊢
  obtain ⟨i, hi, hp⟩ := h
  refine ⟨z.length + i, ?_, ?_⟩
  · simp [List.length_append]
    omega
  · rw [drop_len_append]
    exact hp

/-- Strings with equal character data are equal. -/
theorem strExt {s t : String} (h : s.data = t.data) : s = t := by
  cases s
  cases t
  simp only at h
  rw [h]

/-- The architecture-branch marker occurs in every dual-architecture OS
block. -/
theorem branch_marker_mem (os tag : String) (a b : Asset) :
    containsStr (osBlock os (some a) (some b) tag) "Hardware::CPU.arm?" = true := by
  have e : osBlock os (some a) (some b) tag =
      ("  on_" ++ os ++ " do\n    if ") ++
        ("Hardware::CPU.arm?" ++
          ("\n      url \"" ++ (renderAssetUrl a.url tag ++
            ("\"\n      sha256 \"" ++ (a.sha256 ++
              ("\"\n    else\n      url \"" ++ (renderAssetUrl b.url tag ++
                ("\"\n      sha256 \"" ++ (b.sha256 ++
                  "\"\n    end\n  end\n\n"))))))))) := by
    apply strExt
    show (("  on_" ++ os ++ " do\n    if Hardware::CPU.arm?\n      url \"" ++
      renderAssetUrl a.url tag ++ "\"\n      sha256 \"" ++ a.sha256 ++
      "\"\n    else\n      url \"" ++ renderAssetUrl b.url tag ++
      "\"\n      sha256 \"" ++ b.sha256 ++ "\"\n    end\n  end\n\n").data) = _
    simp [strData_append, List.append_assoc]
  rw [containsStr, e, strData_append, strData_append]
  exact containsSub_append_left _ (containsSub_here _ _)

/-- A single-architecture OS block contains no branch marker when its
interpolated parts are free of `?` (the marker ends in `?` and the block's
fixed text contains none). -/
theorem single_no_marker (os u sha : String)
    (h1 : ('?' : Char) ∉ os.data) (h2 : ('?' : Char) ∉ u.data)
    (h3 : ('?' : Char) ∉ sha.data) :
    containsStr ("  on_" ++ os ++ " do\n    url \"" ++ u ++
      "\"\n    sha256 \"" ++ sha ++ "\"\n  end\n\n") "Hardware::CPU.arm?" = false := by
  rw [containsStr]
  apply containsSub_false_of_not_mem '?'
  · decide
  · intro hmem
    simp only [strData_append, List.mem_append] at hmem
    rcases hmem with ((((((hl | ho) | hl2) | hu) | hl3) | hs) | hl4)
    · exact absurd hl (by decide)
    · exact h1 ho
    · exact absurd hl2 (by decide)
    · exact h2 hu
    · exact absurd hl3 (by decide)
    · exact h3 hs
    · exact absurd hl4 (by decide)

/-- Claim C8: the rendered formula decomposes into header, macOS block,
Linux block, and footer; each OS block is an architecture branch exactly
when both architecture assets exist, a single unconditional url/sha256 pair
when exactly one exists, and empty when neither exists (branch presence
witnessed by the `Hardware::CPU.arm?` marker, which single and empty blocks
with `?`-free interpolations never contain). -/
theorem c8_thm (proj : Project) (r : Release) (v : Bool) (os tag : String)
    (a b : Asset) :
    (generate_formula proj r v =
        formulaHeader proj r v ++
          osBlock "macos" (pyGet r.assets "macos_arm64")
            (pyGet r.assets "macos_x86_64") r.tag ++
          osBlock "linux" (pyGet r.assets "linux_arm64")
            (pyGet r.assets "linux_x86_64") r.tag ++
          formulaFooter proj) ∧
      osBlock os none none tag = "" ∧
      (osBlock os (some a) (some b) tag =
        "  on_" ++ os ++ " do\n    if Hardware::CPU.arm?\n      url \"" ++
          renderAssetUrl a.url tag ++ "\"\n      sha256 \"" ++ a.sha256 ++
          "\"\n    else\n      url \"" ++ renderAssetUrl b.url tag ++
          "\"\n      sha256 \"" ++ b.sha256 ++ "\"\n    end\n  end\n\n") ∧
      (osBlock os (some a) none tag =
        "  on_" ++ os ++ " do\n    url \"" ++ renderAssetUrl a.url tag ++
          "\"\n    sha256 \"" ++ a.sha256 ++ "\"\n  end\n\n") ∧
      (osBlock os none (some b) tag =
        "  on_" ++ os ++ " do\n    url \"" ++ renderAssetUrl b.url tag ++
          "\"\n    sha256 \"" ++ b.sha256 ++ "\"\n  end\n\n") ∧
      containsStr (osBlock os (some a) (some b) tag) "Hardware::CPU.arm?" = true ∧
      (('?' : Char) ∉ os.data → ('?' : Char) ∉ (renderAssetUrl a.url tag).data →
        ('?' : Char) ∉ a.sha256.data →
        containsStr (osBlock os (some a) none tag) "Hardware::CPU.arm?" = false) ∧
      (('?' : Char) ∉ os.data → ('?' : Char) ∉ (renderAssetUrl b.url tag).data →
        ('?' : Char) ∉ b.sha256.data →
        containsStr (osBlock os none (some b) tag) "Hardware::CPU.arm?" = false) ∧
      containsStr (osBlock os none none tag) "Hardware::CPU.arm?" = false := by
  refine ⟨rfl, rfl, rfl, rfl, rfl, branch_marker_mem os tag a b, ?_, ?_, ?_⟩
  · intro h1 h2 h3
    exact single_no_marker os (renderAssetUrl a.url tag) a.sha256 h1 h2 h3
  · intro h1 h2 h3
    exact single_no_marker os (renderAssetUrl b.url tag) b.sha256 h1 h2 h3
  · show containsStr "" "Hardware::CPU.arm?" = false
    decide

/-- Witness for C8: a macOS block with a single x86 asset has no
architecture branch. -/
theorem c8_witness :
    containsStr (osBlock "macos" none
        (some ⟨"t-darwin-x86_64.tar.gz", "https://x/v1.0.0/t.tar.gz", "abcd"⟩)
        "v1.0.0") "Hardware::CPU.arm?" = false :=
  (c8_thm ⟨"o/p", "p", "d", "MIT", "h", "p", 0, []⟩ ⟨"v1.0.0", "1.0.0", "1.0", []⟩
      false "macos" "v1.0.0"
      ⟨"t-darwin-x86_64.tar.gz", "https://x/v1.0.0/t.tar.gz", "abcd"⟩
      ⟨"t-darwin-x86_64.tar.gz", "https://x/v1.0.0/t.tar.gz", "abcd"⟩).2.2.2.2.2.2.2.1
    (by decide) (by decide) (by decide)

/-! ## Claim C9 -/

/-- Filtering by non-membership in a reference list characterizes retained
elements. -/
theorem mem_filter_not_contains (l R : List String) (f : String) :
    f ∈ l.filter (fun fn => !(R.contains fn)) ↔ f ∈ l ∧ f ∉ R := by
  rw [List.mem_filter]
  simp

/-- The reported removals of cleanup, in either mode, are exactly the stale
pinned files. -/
theorem cleanup_removed_eq (files : List String) (name : String)
    (keep : List String) (dr : Bool) :
    (cleanup_old_versions files name keep dr).1 =
      files.filter (isStalePinned name keep) := by
  show (files.filter (fun fn => globPinned name fn)).filter _ = _
  rw [List.filter_filter]
  refine List.filter_congr ?_
  intro a _
  have e : isStalePinned name keep a = (globPinned name a &&
      match parsePinnedVersion name a with
      | some v => !keep.contains v
      | none => false) := rfl
  rw [e, Bool.and_comm]

/-- Claim C9: cleanup removes exactly the project's pinned formula files
whose parsed minor is not retained and leaves every other file in place; in
dry-run mode the directory is untouched while the same removals are
reported; on the example with retained {2.1, 2.0} only the 1.9 pinned file
is removed. -/
theorem c9_thm (files : List String) (name : String) (keep : List String)
    (f : String) :
    (f ∈ (cleanup_old_versions files name keep false).1 ↔
      f ∈ files ∧ isStalePinned name keep f = true) ∧
      (f ∈ (cleanup_old_versions files name keep false).2 ↔
        f ∈ files ∧ ¬ isStalePinned name keep f = true) ∧
      (cleanup_old_versions files name keep true).2 = files ∧
      (cleanup_old_versions files name keep true).1 =
        (cleanup_old_versions files name keep false).1 ∧
      cleanup_old_versions ["p@2.1.rb", "p@2.0.rb", "p@1.9.rb", "p.rb", "readme.txt"]
          "p" ["2.1", "2.0"] false =
        (["p@1.9.rb"], ["p@2.1.rb", "p@2.0.rb", "p.rb", "readme.txt"]) ∧
      cleanup_old_versions ["p@2.1.rb", "p@2.0.rb", "p@1.9.rb", "p.rb", "readme.txt"]
          "p" ["2.1", "2.0"] true =
        (["p@1.9.rb"], ["p@2.1.rb", "p@2.0.rb", "p@1.9.rb", "p.rb", "readme.txt"]) := by
  refine ⟨?_, ?_, rfl, rfl, by decide, by decide⟩
  · rw [cleanup_removed_eq, List.mem_filter]
  · have h1 : (cleanup_old_versions files name keep false).2 =
        files.filter (fun fn =>
          !((cleanup_old_versions files name keep false).1.contains fn)) := rfl
    rw [h1, mem_filter_not_contains, cleanup_removed_eq]
    constructor
    · intro ⟨hf, hn⟩
      refine ⟨hf, fun hs => hn ?_⟩
      rw [List.mem_filter]
      exact ⟨hf, hs⟩
    · intro ⟨hf, hn⟩
      refine ⟨hf, fun hmem => ?_⟩
      rw [List.mem_filter] at hmem
      exact hn hmem.2

/-! ## Claim C10 -/

/-- Claim C10: for a project whose configuration omits the license, when the
fetched repository metadata has no license information (missing key, null,
or empty object), the defaulted license is the fixed string MIT, and every
formula rendered for the project carries a `license "MIT"` line. -/
theorem c10_thm (p : Project) (repo : RepoInfo) (r : Release) (v : Bool)
    (hlic : p.license = "")
    (hinfo : repo.license = none ∨ repo.license = some LicenseJ.jnull ∨
      repo.license = some (LicenseJ.jobj [])) :
    (fillMeta p repo).license = "MIT" ∧
      ∃ pre post, generate_formula (fillMeta p repo) r v =
        pre ++ ("  license \"MIT\"\n" ++ post) := by
  have hres : resolveLicense repo.license = "MIT" := by
    rcases hinfo with h | h | h <;> rw [h] <;> rfl
  have hfill : (fillMeta p repo).license = "MIT" := by
    rw [fillMeta, if_pos (by simp [hlic]), if_pos hlic]
    exact hres
  refine ⟨hfill, ?_⟩
  refine ⟨"class " ++ formulaClassName (fillMeta p repo) r v ++ " < Formula\n" ++
    "  desc \"" ++ (fillMeta p repo).description ++ "\"\n" ++
    "  homepage \"" ++ (fillMeta p repo).homepage ++ "\"\n",
    "  version \"" ++ r.version ++ "\"\n\n" ++
      osBlock "macos" (pyGet r.assets "macos_arm64")
        (pyGet r.assets "macos_x86_64") r.tag ++
      osBlock "linux" (pyGet r.assets "linux_arm64")
        (pyGet r.assets "linux_x86_64") r.tag ++
      formulaFooter (fillMeta p repo), ?_⟩
  apply strExt
  rw [generate_formula, formulaHeader, hfill]
  simp [strData_append, List.append_assoc]

/-- Witness for C10 at a project with an omitted license and a repository
with no license metadata. -/
theorem c10_witness :
    (fillMeta ⟨"o/p", "p", "d", "", "h", "p", 0, []⟩ ⟨some "d", none⟩).license =
      "MIT" :=
  (c10_thm ⟨"o/p", "p", "d", "", "h", "p", 0, []⟩ ⟨some "d", none⟩
    ⟨"v1.0.0", "1.0.0", "1.0", []⟩ false rfl (Or.inl rfl)).1

/-! ## Claim C1 -/

/-- The write loop only appends: earlier writes persist. -/
theorem writeStep_mono {x : String × String} (p : Project) (latest : String)
    (dryRun : Bool) (acc : List (String × String)) (mr : String × Release)
    (h : x ∈ acc) : x ∈ writeStep p latest dryRun acc mr := by
  simp only [writeStep]
  have hx1 : x ∈ (if (mr.1 == latest && !dryRun) = true then
      acc ++ [(p.name ++ ".rb", generate_formula p mr.2 false)] else acc) := by
    split
    · exact List.mem_append_left _ h
    · exact h
  split
  · exact List.mem_append_left _ hx1
  · exact hx1

/-- Folding the write loop only appends: earlier writes persist. -/
theorem foldl_writeStep_mono (p : Project) (latest : String) (dryRun : Bool) :
    ∀ (l : List (String × Release)) (acc : List (String × String))
      (x : String × String), x ∈ acc →
      x ∈ l.foldl (writeStep p latest dryRun) acc := by
  intro l
  induction l with
  | nil => exact fun acc x h => h
  | cons mr rest ih =>
    intro acc x h
    rw [List.foldl_cons]
    exact ih _ x (writeStep_mono p latest dryRun acc mr h)

/-- When a generated entry carries the latest minor, the canonical formula
write is emitted by the (non-dry-run) write loop. -/
theorem foldl_writeStep_hits (p : Project) (latest : String) :
    ∀ (l : List (String × Release)) (acc : List (String × String)) (r : Release),
      (latest, r) ∈ l →
      (p.name ++ ".rb", generate_formula p r false) ∈
        l.foldl (writeStep p latest false) acc := by
  intro l
  induction l with
  | nil =>
    intro acc r h
    simp at h
  | cons mr rest ih =>
    intro acc r h
    rcases List.mem_cons.mp h with heq | hrest
    · rw [List.foldl_cons]
      apply foldl_writeStep_mono
      rw [← heq]
      simp only [writeStep]
      have hx1 : (p.name ++ ".rb", generate_formula p r false) ∈
          (if (((latest, r)).1 == latest && !false) = true then
            acc ++ [(p.name ++ ".rb", generate_formula p ((latest, r)).2 false)]
          else acc) := by
        rw [if_pos (by simp)]
        exact List.mem_append_right _ (by simp)
      split
      · exact List.mem_append_left _ hx1
      · exact hx1
    · rw [List.foldl_cons]
      exact ih _ r hrest

/-- Every generated release records the minor it was generated for. -/
theorem mem_generatedReleases_minor {p : Project} {rels : List RelData}
    {shaOf : String → String} {mm : String} {r : Release}
    (h : (mm, r) ∈ generatedReleases p rels shaOf) : r.major_minor = mm := by
  rw [generatedReleases] at h
  obtain ⟨v, hv, hf⟩ := List.mem_filterMap.mp h
  cases hg : pyGet (groupReleasesByMinor rels) v with
  | none =>
    rw [hg] at hf
    simp at hf
  | some rd =>
    rw [hg] at hf
    have hf2 : (if (find_release_assets rd.assets p).isEmpty = true then none
        else some (v,
          { tag := rd.tag_name, version := extract_version rd.tag_name,
            major_minor := v,
            assets := withShas shaOf (find_release_assets rd.assets p) })) =
        some (mm, r) := hf
    by_cases hie : (find_release_assets rd.assets p).isEmpty = true
    · rw [if_pos hie] at hf2
      simp at hf2
    · rw [if_neg hie] at hf2
      have hp := Option.some.inj hf2
      rw [Prod.mk.injEq] at hp
      rw [← hp.2, ← hp.1]

/-- Claim C1 is false as stated: with keep_versions = 1 and releases whose
latest minor 2.1 has no matched assets while 2.0 has, processing succeeds
(returning the pinned 2.0 write and retained set {2.0}) yet the canonical
formula file `p.rb` is never written, even though 2.1 and 2.0 are both in
the retention window. -/
theorem c1_counterexample :
    versionsToKeepOf (sortedMinors
        [⟨"v2.1.0", false, false, []⟩,
         ⟨"v2.0.0", false, false,
          [⟨"tool-linux-amd64.tar.gz", "https://x/v2.0.0/t.tar.gz"⟩]⟩]) 1 =
      ["2.1", "2.0"] ∧
      latestMinor
        [⟨"v2.1.0", false, false, []⟩,
         ⟨"v2.0.0", false, false,
          [⟨"tool-linux-amd64.tar.gz", "https://x/v2.0.0/t.tar.gz"⟩]⟩] = "2.1" ∧
      (processProject ⟨"o/p", "p", "d", "MIT", "h", "p", 1, []⟩ ⟨some "d", none⟩
          [⟨"v2.1.0", false, false, []⟩,
           ⟨"v2.0.0", false, false,
            [⟨"tool-linux-amd64.tar.gz", "https://x/v2.0.0/t.tar.gz"⟩]⟩]
          (fun _ => "sha") false).map
        (fun w => (w.1.map (fun nc => nc.1), w.2)) =
      some (["p@2.0.rb"], ["2.0"]) := by
  decide

/-- Claim C1 (amended): whenever a project is processed successfully and the
latest minor of the retention window is among the generated (non-skipped)
releases, the canonical formula file is written with the rendering of that
release; skipping of older retained minors does not affect this. When the
latest minor itself is skipped for lack of assets, no canonical file is
written at all. -/
theorem c1_amended (proj : Project) (repo : RepoInfo) (rels : List RelData)
    (shaOf : String → String) (writes : List (String × String))
    (gen : List String)
    (h : processProject proj repo rels shaOf false = some (writes, gen))
    (hl : latestMinor rels ∈ gen) :
    ∃ r : Release, r.major_minor = latestMinor rels ∧
      ((fillMeta proj repo).name ++ ".rb",
        generate_formula (fillMeta proj repo) r false) ∈ writes := by
  simp only [processProject] at h
  split at h
  · simp at h
  · split at h
    · simp at h
    · split at h
      · simp at h
      · split at h
        · simp at h
        · have hpair := Option.some.inj h
          have hw : writePlan (fillMeta proj repo) (latestMinor rels)
              (generatedReleases (fillMeta proj repo) rels shaOf) false = writes :=
            congrArg Prod.fst hpair
          have hgen : (generatedReleases (fillMeta proj repo) rels shaOf).map
              (fun mr => mr.1) = gen :=
            congrArg Prod.snd hpair
          rw [← hgen] at hl
          obtain ⟨mr, hmem, hfst⟩ := List.mem_map.mp hl
          obtain ⟨mm, rr⟩ := mr
          simp only at hfst
          have hminor := mem_generatedReleases_minor hmem
          refine ⟨rr, by rw [hminor, hfst], ?_⟩
          rw [← hw, writePlan]
          apply foldl_writeStep_hits
          rw [hfst] at hmem
          exact hmem

/-- Witness for the amended C1: a single-release project where the latest
minor is generated, applied to the concretely computed write plan. -/
theorem c1_witness :
    ∃ r : Release,
      r.major_minor = latestMinor
        [⟨"v2.0.0", false, false,
          [⟨"tool-linux-amd64.tar.gz", "https://x/v2.0.0/t.tar.gz"⟩]⟩] ∧
      ((fillMeta ⟨"o/p", "p", "d", "MIT", "h", "p", 1, []⟩ ⟨some "d", none⟩).name
          ++ ".rb",
        generate_formula
          (fillMeta ⟨"o/p", "p", "d", "MIT", "h", "p", 1, []⟩ ⟨some "d", none⟩)
          r false) ∈
        ((processProject ⟨"o/p", "p", "d", "MIT", "h", "p", 1, []⟩ ⟨some "d", none⟩
            [⟨"v2.0.0", false, false,
              [⟨"tool-linux-amd64.tar.gz", "https://x/v2.0.0/t.tar.gz"⟩]⟩]
            (fun _ => "sha") false).getD ([], [])).1 :=
  c1_amended ⟨"o/p", "p", "d", "MIT", "h", "p", 1, []⟩ ⟨some "d", none⟩
    [⟨"v2.0.0", false, false,
      [⟨"tool-linux-amd64.tar.gz", "https://x/v2.0.0/t.tar.gz"⟩]⟩]
    (fun _ => "sha")
    ((processProject ⟨"o/p", "p", "d", "MIT", "h", "p", 1, []⟩ ⟨some "d", none⟩
        [⟨"v2.0.0", false, false,
          [⟨"tool-linux-amd64.tar.gz", "https://x/v2.0.0/t.tar.gz"⟩]⟩]
        (fun _ => "sha") false).getD ([], [])).1
    ((processProject ⟨"o/p", "p", "d", "MIT", "h", "p", 1, []⟩ ⟨some "d", none⟩
        [⟨"v2.0.0", false, false,
          [⟨"tool-linux-amd64.tar.gz", "https://x/v2.0.0/t.tar.gz"⟩]⟩]
        (fun _ => "sha") false).getD ([], [])).2
    (by decide) (by decide)
